import Mathlib

/-!
Verification development for the claude-mcp-kb repository.

This file gives a shallow embedding, in Lean 4, of the core logic of the
repository: the glob-like pattern matcher and file-eligibility filter of
`GitHubSync` (src/knowledge-base/github-sync.ts), the keyword search engine
(`SearchEngine.search`, src/knowledge-base/search.ts), the blocklist ledger of
`KnowledgeBaseStorage` (storage.ts, reproduced in SETUP.md), and the sync
orchestration loop of `syncKnowledgeBase` (src/index.ts).  JavaScript strings
are modelled as Lean `String`s operated on through their `List Char` data
(ASCII-faithful); JavaScript numbers holding exact small values (occurrence
counts, scores of the form `min(m/10, 1)`) are modelled as `Int`/`ℚ`; fallible
provider calls are modelled as `Except String` values; the SHA-256 digest is
abstracted as a `String → String` parameter.  Recursions whose termination
measure is a length are written with an explicit fuel argument equal to that
length so that every definition reduces by `decide`/`rfl`.
-/

/-! ## JavaScript string primitives (List Char level) -/

/-- The character list obtained by dropping, from the front of `s`, everything
up to and including one left-to-right, non-overlapping replacement pass:
`replaceFuel fuel s pat rep` is `s` with every non-overlapping occurrence of
`pat` (scanned left to right) replaced by `rep`, mirroring JavaScript
`String.prototype.replace` with a global literal pattern.  `fuel ≥ s.length`
suffices because each step consumes at least one character of `s`. -/
def replaceFuel : Nat → List Char → List Char → List Char → List Char
  | 0, _, _, _ => []
  | _ + 1, [], _, _ => []
  | f + 1, c :: s, pat, rep =>
      if pat.isPrefixOf (c :: s) then
        rep ++ replaceFuel f (s.drop (pat.length - 1)) pat rep
      else
        c :: replaceFuel f s pat rep

/-- JavaScript `s.replace(/pat/g, rep)` for a non-empty literal `pat`. -/
def jsReplaceAll (s pat rep : String) : String :=
  ⟨replaceFuel s.data.length s.data pat.data rep.data⟩

/-- JavaScript `String.prototype.toLowerCase` (ASCII-faithful). -/
def jsToLower (s : String) : String :=
  ⟨s.data.map Char.toLower⟩

/-- Index search helper: `firstOccAux q s k = some (k + i)` where `i` is the
least offset of `q` in `s`, and `none` when `q` does not occur.  Mirrors the
scan performed by JavaScript `String.prototype.indexOf`. -/
def firstOccAux (q : List Char) : List Char → Nat → Option Nat
  | [], k => if q.isPrefixOf ([] : List Char) then some k else none
  | c :: s, k => if q.isPrefixOf (c :: s) then some k else firstOccAux q s (k + 1)

/-- Least offset at which `q` occurs in `s` (JavaScript `indexOf`, with `none`
for the `-1` case).  `firstOcc [] s = some 0`, as in JavaScript. -/
def firstOcc (q s : List Char) : Option Nat :=
  firstOccAux q s 0

/-- JavaScript `String.prototype.includes`. -/
def jsIncludes (s q : String) : Bool :=
  (firstOcc q.data s.data).isSome

/-- Splitting scan for a non-empty separator, mirroring JavaScript
`String.prototype.split`: non-overlapping, left-to-right; `acc` holds the
current segment reversed.  `fuel ≥ s.length` suffices. -/
def splitOnFuel (q : List Char) : Nat → List Char → List Char → List (List Char)
  | _, [], acc => [acc.reverse]
  | 0, _ :: _, acc => [acc.reverse]
  | f + 1, c :: s, acc =>
      if q.isPrefixOf (c :: s) then
        acc.reverse :: splitOnFuel q f (s.drop (q.length - 1)) []
      else
        splitOnFuel q f s (c :: acc)

/-- JavaScript `String.prototype.split` with a string separator: an empty
separator splits into single characters (so `"".split("")` is `[]`), a
non-empty separator splits on non-overlapping left-to-right occurrences. -/
def jsSplit (s sep : String) : List String :=
  if sep.data.isEmpty then s.data.map (fun c => ⟨[c]⟩)
  else (splitOnFuel sep.data s.data.length s.data []).map (fun l => ⟨l⟩)

/-- JavaScript `String.prototype.slice(a, b)` for `0 ≤ a ≤ b` (the only case
the search engine exercises, since it clamps both ends first). -/
def jsSlice (s : String) (a b : Nat) : String :=
  ⟨(s.data.drop a).take (b - a)⟩

/-- Greedy count of non-overlapping, left-to-right occurrences of `q` in the
remaining input; the reference notion of "occurrence count" used by the spec.
`fuel ≥ s.length` suffices. -/
def countOccsFuel (q : List Char) : Nat → List Char → Nat
  | _, [] => 0
  | 0, _ :: _ => 0
  | f + 1, c :: s =>
      if q.isPrefixOf (c :: s) then 1 + countOccsFuel q f (s.drop (q.length - 1))
      else countOccsFuel q f s

/-- Number of non-overlapping occurrences of `q` in `s`. -/
def countOccs (q s : List Char) : Nat :=
  countOccsFuel q s.length s

/-! ## Pattern matcher (GitHubSync.matchPattern)

The source converts a glob to a regular-expression string by four global
string replacements, in order: `.` to `\.`, `**` to `.*`, `*` to `[^/]*`,
`?` to `.`; it then tests the path against `^regex$`.  We reproduce the
string replacements verbatim and interpret the resulting regex text with a
small anchored matcher for the regex fragment those replacements can emit
(literals, `\`-escaped literals, `.`, character classes, postfix `*`). -/

/-- Atom of the regular-expression fragment produced by the glob translation:
a literal character, the any-character dot, or a (possibly negated)
character class. -/
inductive RAtom : Type
  | lit (c : Char)
  | dot
  | cls (neg : Bool) (members : List Char)
deriving DecidableEq

/-- Whether a regex atom matches one character.  As in JavaScript, `.` matches
every character except a line terminator. -/
def amatch : RAtom → Char → Bool
  | RAtom.lit c, x => x == c
  | RAtom.dot, x => !(x == '\n' || x == '\r' || x.val == 0x2028 || x.val == 0x2029)
  | RAtom.cls neg ms, x => if neg then !(ms.contains x) else ms.contains x

/-- Reads a character-class body up to the closing `]`, returning the members
and the rest of the input. -/
def takeClass : List Char → Option (List Char × List Char)
  | [] => none
  | ']' :: rest => some ([], rest)
  | c :: rest => (takeClass rest).map (fun p => (c :: p.1, p.2))

/-- Parses the regex text into a list of (atom, starred?) items.  `fuel ≥`
input length suffices since every step consumes at least one character. -/
def parseRegexFuel : Nat → List Char → Option (List (RAtom × Bool))
  | 0, _ => none
  | _ + 1, [] => some []
  | f + 1, '\\' :: rest =>
      match rest with
      | [] => none
      | c :: rest' =>
          match rest' with
          | '*' :: rest'' => (parseRegexFuel f rest'').map (fun l => (RAtom.lit c, true) :: l)
          | _ => (parseRegexFuel f rest').map (fun l => (RAtom.lit c, false) :: l)
  | f + 1, '[' :: rest =>
      let negBody : Bool × List Char :=
        match rest with
        | '^' :: b => (true, b)
        | _ => (false, rest)
      match takeClass negBody.2 with
      | none => none
      | some (ms, rest') =>
          match rest' with
          | '*' :: rest'' =>
              (parseRegexFuel f rest'').map (fun l => (RAtom.cls negBody.1 ms, true) :: l)
          | _ => (parseRegexFuel f rest').map (fun l => (RAtom.cls negBody.1 ms, false) :: l)
  | f + 1, c :: rest =>
      let atom := if c == '.' then RAtom.dot else RAtom.lit c
      match rest with
      | '*' :: rest' => (parseRegexFuel f rest').map (fun l => (atom, true) :: l)
      | _ => (parseRegexFuel f rest).map (fun l => (atom, false) :: l)

/-- Parses a regex text (the fragment emitted by the glob translation). -/
def parseRegex (s : List Char) : Option (List (RAtom × Bool)) :=
  parseRegexFuel (s.length + 1) s

/-- Anchored regex matching with backtracking: does the item list match the
whole character list?  Each recursive call decreases
`items.length + s.length`, so that much fuel suffices. -/
def rmatchFuel : Nat → List (RAtom × Bool) → List Char → Bool
  | 0, _, _ => false
  | _ + 1, [], [] => true
  | _ + 1, [], _ :: _ => false
  | _ + 1, (_, false) :: _, [] => false
  | f + 1, (a, false) :: rest, c :: cs => amatch a c && rmatchFuel f rest cs
  | f + 1, (a, true) :: rest, s =>
      rmatchFuel f rest s ||
        (match s with
         | [] => false
         | c :: cs => amatch a c && rmatchFuel f ((a, true) :: rest) cs)

/-- Anchored (full-string) regex match, as in testing against `^regex$`. -/
def rmatch (items : List (RAtom × Bool)) (s : List Char) : Bool :=
  rmatchFuel (items.length + s.length + 1) items s

/-- Shallow embedding of `GitHubSync.matchPattern`: the glob pattern is turned
into regex text by the source's four global replacements in source order, then
the path is tested against the anchored regex. -/
def matchPattern (filePath pat : String) : Bool :=
  let regexPattern :=
    jsReplaceAll (jsReplaceAll (jsReplaceAll (jsReplaceAll pat "." "\\.") "**" ".*") "*" "[^/]*") "?" "."
  match parseRegex regexPattern.data with
  | some items => rmatch items filePath.data
  | none => false

example : matchPattern "a/b/c.md" "a/**/*.md" = true := by decide
example : matchPattern "a/b/c.md" "a/*.md" = false := by decide
example : matchPattern "x/node_modules/y/z.ts" "**/node_modules/**" = false := by decide

/-! ## Document index and search engine (SearchEngine)

The `Map<string, IndexedDocument>` index is modelled as a `List` in insertion
order (JavaScript `Map` iteration order), with `upsert` mirroring `Map.set`:
an existing key keeps its position and gets the new value, a new key is
appended.  `IndexedDocument.metadata` is flattened into the record. -/

structure IndexedDocument where
  id : String
  repoOwner : String
  repoName : String
  branch : String
  filePath : String
  content : String
  fileType : String
  lastModified : String
  size : Nat
  hash : String
  indexed : String
deriving DecidableEq

structure SearchResult where
  document : IndexedDocument
  score : ℚ
  snippet : String
deriving DecidableEq

/-- Shallow embedding of `Map.set` as used by `SearchEngine.addDocuments`. -/
def upsert (index : List IndexedDocument) (d : IndexedDocument) : List IndexedDocument :=
  if index.any (fun x => x.id == d.id) then
    index.map (fun x => if x.id == d.id then d else x)
  else index ++ [d]

/-- Shallow embedding of `SearchEngine.addDocuments`. -/
def addDocuments (index : List IndexedDocument) (docs : List IndexedDocument) : List IndexedDocument :=
  docs.foldl upsert index

/-- The body of the per-document loop in `SearchEngine.search`: `none` when the
lowercased content does not contain the lowercased query, otherwise the pushed
result, with the occurrence count computed as `split(queryLower).length - 1`
(an `Int`, since JavaScript evaluates `[].length - 1` to `-1`), the score as
`min(matches / 10, 1.0)` as an exact rational, and the snippet sliced from the
original (non-lowercased) content around the first match. -/
def searchOne (queryLower : String) (doc : IndexedDocument) : Option SearchResult :=
  let contentLower := jsToLower doc.content
  if jsIncludes contentLower queryLower then
    let numMatches : Int := (jsSplit contentLower queryLower).length - 1
    let score : ℚ := min ((numMatches : ℚ) / 10) 1
    let firstMatchIndex : Nat := (firstOcc queryLower.data contentLower.data).getD 0
    let snippetStart : Nat := firstMatchIndex - 100
    let snippetEnd : Nat := min doc.content.data.length (firstMatchIndex + 200)
    some { document := doc, score := score,
           snippet := "..." ++ jsSlice doc.content snippetStart snippetEnd ++ "..." }
  else none

/-- Stable descending insertion: `x` is placed before the first element whose
score is not greater than `x`'s.  This is the unique stable order produced by
the source's `sort((a, b) => b.score - a.score)` (JavaScript `Array.sort` is
specified to be stable). -/
def insertDesc (x : SearchResult) : List SearchResult → List SearchResult
  | [] => [x]
  | y :: ys => if x.score < y.score then y :: insertDesc x ys else x :: y :: ys

/-- Stable sort of results by score, descending. -/
def sortByScoreDesc : List SearchResult → List SearchResult
  | [] => []
  | x :: xs => insertDesc x (sortByScoreDesc xs)

/-- Shallow embedding of `SearchEngine.search` over an index in insertion
order: collect a result per matching document, sort by score descending
(stable), then `slice(0, maxResults)`. -/
def search (docs : List IndexedDocument) (query : String) (maxResults : Nat) : List SearchResult :=
  let queryLower := jsToLower query
  let results := docs.filterMap (fun doc => searchOne queryLower doc)
  (sortByScoreDesc results).take maxResults

/-! ## Repository tree filtering and fetching (GitHubSync.fetchFilesFromRepo) -/

structure TreeItem where
  type : String
  path : Option String
  sha : Option String
  size : Option Nat
deriving DecidableEq

/-- JavaScript truthiness of an optional string, as tested by
`if (!item.path) ...`: `undefined`/`null` and the empty string are falsy. -/
def jsTruthy : Option String → Bool
  | none => false
  | some s => !(s == "")

/-- The predicate of `tree.tree.filter(...)` in `GitHubSync.fetchFilesFromRepo`:
keep blobs whose path is truthy (defined and non-empty, since JavaScript
`!item.path` also rejects the empty string) and that match some include
pattern and no exclude pattern. -/
def matchingFilter (includePatterns excludePatterns : List String) (item : TreeItem) : Bool :=
  if item.type != "blob" then false
  else if !jsTruthy item.path then false
  else
    let p := item.path.getD ""
    let includeMatch := includePatterns.any (fun pat => matchPattern p pat)
    if !includeMatch then false
    else
      let excludeMatch := excludePatterns.any (fun pat => matchPattern p pat)
      if excludeMatch then false else true

/-- Suffix of a character list after its last dot, when a dot exists. -/
def lastDotSuffix : List Char → Option (List Char)
  | [] => none
  | c :: s =>
      match lastDotSuffix s with
      | some e => some e
      | none => if c == '.' then some s else none

/-- The source's `path.extname(file.path).slice(1) || 'unknown'`: extension of
the final path segment (a leading dot does not start an extension), without
the dot, defaulting to `"unknown"`. -/
def fileTypeOf (p : String) : String :=
  let base : String :=
    match (jsSplit p "/").getLast? with
    | some b => b
    | none => ""
  match base.data with
  | [] => "unknown"
  | _ :: rest =>
      match lastDotSuffix rest with
      | some e => if e.isEmpty then "unknown" else ⟨e⟩
      | none => "unknown"

/-- The `IndexedDocument` record built for one fetched file. -/
def mkDoc (owner repo branch p content sha now : String) (size : Nat) : IndexedDocument :=
  { id := owner ++ "/" ++ repo ++ "/" ++ branch ++ "/" ++ p
    repoOwner := owner
    repoName := repo
    branch := branch
    filePath := p
    content := content
    fileType := fileTypeOf p
    lastModified := now
    size := size
    hash := sha
    indexed := now }

/-- Shallow embedding of `GitHubSync.fetchFilesFromRepo`.  The provider calls
are passed in as fallible functions: `getTree` is the one `git.getTree` call,
`getBlob` the per-file `git.getBlob` call.  The outer `try/catch` (any
repository-level failure returns `[]`) is the `Except.error` branch of
`getTree`; the inner per-file `try/catch` (a failed blob fetch skips only that
file) is the `Except.error` branch of `getBlob` inside `filterMap`.  `now`
stands for `new Date().toISOString()`. -/
def fetchFilesFromRepo (getTree : Except String (List TreeItem))
    (getBlob : String → Except String String)
    (owner repo branch : String)
    (includePatterns excludePatterns : List String) (now : String) : List IndexedDocument :=
  match getTree with
  | Except.error _ => []
  | Except.ok tree =>
      let matchingFiles := tree.filter (matchingFilter includePatterns excludePatterns)
      matchingFiles.filterMap (fun file =>
        match file.path, file.sha with
        | some p, some sha =>
            match getBlob sha with
            | Except.ok content => some (mkDoc owner repo branch p content sha now (file.size.getD 0))
            | Except.error _ => none
        | _, _ => none)

/-! ## Sync orchestration (syncKnowledgeBase, configured-repository loop) -/

structure RepoConfig where
  owner : String
  repo : String
  branch : String
  includePatterns : List String
  excludePatterns : List String
  indexingEnabled : Bool
deriving DecidableEq

/-- Shallow embedding of the configured-repository loop of
`syncKnowledgeBase`: each repository is fetched with its own patterns (skipped
when `indexingEnabled` is false) and its batch is upserted into the index;
provider behaviour is supplied per repository. -/
def syncConfiguredRepos (getTree : RepoConfig → Except String (List TreeItem))
    (getBlob : RepoConfig → String → Except String String) (now : String)
    (repos : List RepoConfig) (index : List IndexedDocument) : List IndexedDocument :=
  repos.foldl
    (fun idx repo =>
      if !repo.indexingEnabled then idx
      else
        addDocuments idx
          (fetchFilesFromRepo (getTree repo) (getBlob repo) repo.owner repo.repo repo.branch
            repo.includePatterns repo.excludePatterns now))
    index

/-! ## Blocklist ledger (KnowledgeBaseStorage)

`calculateHash(data)` in the source is
`sha256 hex of JSON.stringify(data, Object.keys(data).sort())` prefixed with
`"sha256:"`.  With an array replacer, `JSON.stringify` emits exactly the
listed keys, in the order of the replacer array, omitting keys whose value is
`undefined`; so the canonical form is the JSON object text with
lexicographically sorted field names and only the defined fields.  The entry
passed to `addBlocklistEntry` by the protocol layer (index.ts) is the object
literal with keys, in insertion order: timestamp, type, serverName, pattern,
reason, allowOverride, source — `serverName`/`pattern` possibly `undefined`
(the keys still exist, so `Object.keys` lists them), and no `hash` key.  The
SHA-256 digest itself is abstracted as a `digest : String → String`
parameter. -/

structure BlocklistEntryFields where
  timestamp : String
  type : String
  serverName : Option String
  pattern : Option String
  reason : String
  allowOverride : Bool
  source : String
deriving DecidableEq

structure BlocklistEntry where
  fields : BlocklistEntryFields
  hash : String
deriving DecidableEq

structure Blocklist where
  version : String
  lastUpdated : String
  entries : List BlocklistEntry
deriving DecidableEq

/-- JSON string escaping of one character (the escapes relevant to the string
values at hand; `JSON.stringify` escaping of other control characters is not
exercised by the repository's field values). -/
def jsonEscapeChar (c : Char) : List Char :=
  if c == '"' then ['\\', '"']
  else if c == '\\' then ['\\', '\\']
  else if c == '\n' then ['\\', 'n']
  else if c == '\r' then ['\\', 'r']
  else if c == '\t' then ['\\', 't']
  else [c]

/-- JSON serialization of a string value. -/
def jsonStr (s : String) : String :=
  "\"" ++ ⟨(s.data.map jsonEscapeChar).flatten⟩ ++ "\""

/-- The keys of the entry object built by the `add_blocklist_entry` handler,
in object-literal insertion order (the order `Object.keys` reports). -/
def entryKeys : List String :=
  ["timestamp", "type", "serverName", "pattern", "reason", "allowOverride", "source"]

/-- Lexicographic comparison of character lists by code point, the order the
default comparator of `Array.prototype.sort` applies to strings. -/
def charListLe : List Char → List Char → Bool
  | [], _ => true
  | _ :: _, [] => false
  | a :: as, b :: bs =>
      if a.val < b.val then true
      else if b.val < a.val then false
      else charListLe as bs

/-- Strict lexicographic comparison of character lists by code point. -/
def charListLt : List Char → List Char → Bool
  | [], [] => false
  | [], _ :: _ => true
  | _ :: _, [] => false
  | a :: as, b :: bs =>
      if a.val < b.val then true
      else if b.val < a.val then false
      else charListLt as bs

/-- Insertion step of a stable lexicographic insertion sort on strings,
mirroring the default (code-unit lexicographic) comparator of
`Array.prototype.sort`. -/
def insertKey (k : String) : List String → List String
  | [] => [k]
  | x :: xs => if charListLe k.data x.data then k :: x :: xs else x :: insertKey k xs

/-- `Object.keys(data).sort()`. -/
def sortKeys (ks : List String) : List String :=
  ks.foldr insertKey []

/-- The JSON-serialized value of a field of the entry, `none` when the field
is `undefined` (and so omitted by `JSON.stringify`). -/
def keyValue (e : BlocklistEntryFields) : String → Option String
  | "timestamp" => some (jsonStr e.timestamp)
  | "type" => some (jsonStr e.type)
  | "serverName" => e.serverName.map jsonStr
  | "pattern" => e.pattern.map jsonStr
  | "reason" => some (jsonStr e.reason)
  | "allowOverride" => some (if e.allowOverride then "true" else "false")
  | "source" => some (jsonStr e.source)
  | _ => none

/-- Joins serialized members with a separator. -/
def joinSep (sep : String) : List String → String
  | [] => ""
  | [x] => x
  | x :: y :: xs => x ++ sep ++ joinSep sep (y :: xs)

/-- The canonical serialization hashed by `calculateHash`:
`JSON.stringify(entry, Object.keys(entry).sort())`. -/
def canonicalJSON (e : BlocklistEntryFields) : String :=
  "\x7b" ++
    joinSep ","
      ((sortKeys entryKeys).filterMap (fun k => (keyValue e k).map (fun v => jsonStr k ++ ":" ++ v))) ++
    "\x7d"

/-- Shallow embedding of `KnowledgeBaseStorage.calculateHash` applied to an
entry-without-hash, with the SHA-256 hex digest abstracted as `digest`. -/
def calculateHash (digest : String → String) (e : BlocklistEntryFields) : String :=
  "sha256:" ++ digest (canonicalJSON e)

/-- Shallow embedding of `KnowledgeBaseStorage.addBlocklistEntry` on the
in-memory ledger value: compute the hash of the entry's fields, append the
completed entry, update `lastUpdated` (`now` stands for
`new Date().toISOString()`). -/
def addBlocklistEntry (digest : String → String) (now : String) (bl : Blocklist)
    (e : BlocklistEntryFields) : Blocklist :=
  let h := calculateHash digest e
  { version := bl.version, lastUpdated := now, entries := bl.entries ++ [⟨e, h⟩] }

/-- The per-entry validation `BlocklistSchema.parse` performs (enum membership
of `type` and `source`; datetime-format checking of `timestamp` is not
modelled).  Note the schema validates shape only: it never touches `hash`
beyond requiring it to be a string. -/
def validEntry (e : BlocklistEntry) : Bool :=
  (e.fields.type == "server" || e.fields.type == "file_pattern") &&
    (e.fields.source == "user" || e.fields.source == "system" || e.fields.source == "community")

/-- Shallow embedding of `KnowledgeBaseStorage.loadBlocklist` on the parsed
file value: `BlocklistSchema.parse(JSON.parse(data))` — schema validation
only; the function neither recomputes nor compares any entry's hash, and its
result carries no warning channel. -/
def loadBlocklist (bl : Blocklist) : Except String Blocklist :=
  if bl.entries.all validEntry then Except.ok bl
  else Except.error "blocklist failed schema validation"

/-- Shallow embedding of `KnowledgeBaseStorage.isBlocked`: first entry in
ledger order of kind `server` whose `serverName` equals the argument (when a
server name is given), then first entry of kind `file_pattern` whose `pattern`
is string-equal (when a pattern is given). -/
def isBlocked (bl : Blocklist) (serverName pat : Option String) : Bool × Option String :=
  let serverHit :=
    match serverName with
    | some n => bl.entries.find? (fun en : BlocklistEntry => en.fields.type == "server" && en.fields.serverName == some n)
    | none => none
  match serverHit with
  | some e => (true, some e.fields.reason)
  | none =>
      let patternHit :=
        match pat with
        | some p => bl.entries.find? (fun en : BlocklistEntry => en.fields.type == "file_pattern" && en.fields.pattern == some p)
        | none => none
      match patternHit with
      | some e => (true, some e.fields.reason)
      | none => (false, none)

/-! ## Supporting lemmas -/

/-- An empty string lowercases to the empty string, and conversely. -/
lemma jsToLower_eq_empty_iff (s : String) : jsToLower s = "" ↔ s = "" := by
  constructor
  · intro h
    have hd : (jsToLower s).data = ([] : List Char) := by rw [h]
    have : s.data.map Char.toLower = [] := hd
    have hnil : s.data = [] := by
      cases hs : s.data with
      | nil => rfl
      | cons c cs => rw [hs] at this; simp at this
    exact String.ext hnil
  · intro h; rw [h]; rfl

/-- `firstOcc` of the empty needle always answers offset `0`. -/
lemma firstOcc_nil (s : List Char) : firstOcc [] s = some 0 := by
  cases s with
  | nil => rfl
  | cons c cs => simp [firstOcc, firstOccAux, List.isPrefixOf]

/-- The splitting scan never returns an empty list of segments. -/
lemma splitOnFuel_ne_nil (q : List Char) :
    ∀ (fuel : Nat) (s acc : List Char), splitOnFuel q fuel s acc ≠ [] := by
  intro fuel
  induction fuel with
  | zero => intro s acc; cases s <;> simp [splitOnFuel]
  | succ f ih =>
      intro s acc
      cases s with
      | nil => simp [splitOnFuel]
      | cons c cs =>
          by_cases h : q.isPrefixOf (c :: cs)
          · simp [splitOnFuel, h]
          · simp [splitOnFuel, h]; exact ih cs (c :: acc)

/-- The number of segments the splitting scan produces is one more than the
greedy occurrence count, for every fuel value. -/
lemma splitOnFuel_length (q : List Char) :
    ∀ (fuel : Nat) (s acc : List Char),
      (splitOnFuel q fuel s acc).length = countOccsFuel q fuel s + 1 := by
  intro fuel
  induction fuel with
  | zero => intro s acc; cases s <;> simp [splitOnFuel, countOccsFuel]
  | succ f ih =>
      intro s acc
      cases s with
      | nil => simp [splitOnFuel, countOccsFuel]
      | cons c cs =>
          by_cases h : q.isPrefixOf (c :: cs)
          · simp [splitOnFuel, countOccsFuel, h, ih]; omega
          · simp [splitOnFuel, countOccsFuel, h, ih]

/-- For a non-empty query, the `split(...).length - 1` computed by the search
loop is exactly the greedy non-overlapping occurrence count. -/
lemma jsSplit_length_sub_one (s sep : String) (h : sep ≠ "") :
    ((jsSplit s sep).length : Int) - 1 = (countOccs sep.data s.data : Int) := by
  have hdata : ¬ sep.data.isEmpty = true := by
    cases sep with
    | mk d =>
        cases d with
        | nil => exact absurd rfl h
        | cons c cs => simp [List.isEmpty]
  simp [jsSplit, hdata, countOccs, splitOnFuel_length]

/-- If `q` occurs at least offset `i` in `s` then the `indexOf` scan, started
with accumulated offset `k`, answers `k + i`. -/
lemma firstOccAux_eq_of_least (q : List Char) :
    ∀ (i : Nat) (s : List Char) (k : Nat),
      q.isPrefixOf (s.drop i) = true →
      (∀ j, j < i → ¬ q.isPrefixOf (s.drop j) = true) →
      firstOccAux q s k = some (k + i) := by
  intro i
  induction i with
  | zero =>
      intro s k hocc _
      cases s with
      | nil => simp [firstOccAux]; simpa using hocc
      | cons c cs => simp only [List.drop_zero] at hocc; simp [firstOccAux, hocc]
  | succ i ih =>
      intro s k hocc hleast
      have h0 : ¬ q.isPrefixOf (s.drop 0) = true := hleast 0 (Nat.succ_pos i)
      cases s with
      | nil =>
          exfalso
          apply h0
          simpa using hocc
      | cons c cs =>
          simp only [List.drop_zero] at h0
          have step : firstOccAux q (c :: cs) k = firstOccAux q cs (k + 1) := by
            simp [firstOccAux, h0]
          rw [step]
          have hocc' : q.isPrefixOf (cs.drop i) = true := by
            simpa [List.drop_succ_cons] using hocc
          have hleast' : ∀ j, j < i → ¬ q.isPrefixOf (cs.drop j) = true := by
            intro j hj
            have := hleast (j + 1) (Nat.succ_lt_succ hj)
            simpa [List.drop_succ_cons] using this
          rw [ih cs (k + 1) hocc' hleast']
          congr 1
          omega

/-- `firstOcc` answers the least occurrence offset. -/
lemma firstOcc_eq_of_least (q s : List Char) (i : Nat)
    (hocc : q.isPrefixOf (s.drop i) = true)
    (hleast : ∀ j, j < i → ¬ q.isPrefixOf (s.drop j) = true) :
    firstOcc q s = some i := by
  have := firstOccAux_eq_of_least q i s 0 hocc hleast
  simpa [firstOcc] using this

/-- Membership in a stable descending insertion. -/
lemma mem_insertDesc (x a : SearchResult) :
    ∀ l : List SearchResult, a ∈ insertDesc x l ↔ a = x ∨ a ∈ l := by
  intro l
  induction l with
  | nil => simp [insertDesc]
  | cons y ys ih =>
      by_cases h : x.score < y.score
      · simp [insertDesc, h, ih]
        try tauto
      · simp [insertDesc, h]
        try tauto

/-- Membership is preserved by the stable sort. -/
lemma mem_sortByScoreDesc (a : SearchResult) :
    ∀ l : List SearchResult, a ∈ sortByScoreDesc l ↔ a ∈ l := by
  intro l
  induction l with
  | nil => simp [sortByScoreDesc]
  | cons x xs ih => simp [sortByScoreDesc, mem_insertDesc, ih]

/-- Length is preserved by insertion. -/
lemma length_insertDesc (x : SearchResult) :
    ∀ l : List SearchResult, (insertDesc x l).length = l.length + 1 := by
  intro l
  induction l with
  | nil => rfl
  | cons y ys ih =>
      by_cases h : x.score < y.score
      · simp [insertDesc, h, ih]
      · simp [insertDesc, h]

/-- Length is preserved by the stable sort. -/
lemma length_sortByScoreDesc :
    ∀ l : List SearchResult, (sortByScoreDesc l).length = l.length := by
  intro l
  induction l with
  | nil => rfl
  | cons x xs ih => simp [sortByScoreDesc, length_insertDesc, ih]

/-- Inserting into a list sorted by score descending keeps it sorted. -/
lemma pairwise_insertDesc (x : SearchResult) :
    ∀ l : List SearchResult,
      l.Pairwise (fun a b => b.score ≤ a.score) →
      (insertDesc x l).Pairwise (fun a b => b.score ≤ a.score) := by
  intro l
  induction l with
  | nil => intro _; simp [insertDesc]
  | cons y ys ih =>
      intro hl
      rw [List.pairwise_cons] at hl
      obtain ⟨hy, hys⟩ := hl
      by_cases h : x.score < y.score
      · rw [insertDesc, if_pos h, List.pairwise_cons]
        refine ⟨?_, ih hys⟩
        intro z hz
        rcases (mem_insertDesc x z ys).mp hz with hzx | hzy
        · subst hzx; exact le_of_lt h
        · exact hy z hzy
      · rw [insertDesc, if_neg h, List.pairwise_cons]
        push_neg at h
        refine ⟨?_, ?_⟩
        · intro z hz
          rcases List.mem_cons.mp hz with hzy | hzys
          · subst hzy; exact h
          · exact le_trans (hy z hzys) h
        · rw [List.pairwise_cons]; exact ⟨hy, hys⟩

/-- The stable sort sorts by score, descending. -/
lemma pairwise_sortByScoreDesc :
    ∀ l : List SearchResult,
      (sortByScoreDesc l).Pairwise (fun a b => b.score ≤ a.score) := by
  intro l
  induction l with
  | nil => simp [sortByScoreDesc]
  | cons x xs ih => exact pairwise_insertDesc x (sortByScoreDesc xs) ih

/-- Stability of the insertion step: within any fixed score value, inserting
into a sorted list puts the new element first and disturbs nothing. -/
lemma filter_insertDesc (x : SearchResult) (v : ℚ) :
    ∀ l : List SearchResult,
      l.Pairwise (fun a b => b.score ≤ a.score) →
      (insertDesc x l).filter (fun r => r.score == v) =
        if x.score == v then x :: l.filter (fun r => r.score == v)
        else l.filter (fun r => r.score == v) := by
  intro l
  induction l with
  | nil => intro _; by_cases hx : x.score = v <;> simp [insertDesc, hx]
  | cons y ys ih =>
      intro hl
      rw [List.pairwise_cons] at hl
      obtain ⟨hy, hys⟩ := hl
      by_cases h : x.score < y.score
      · have hxy : ¬ (x.score = v ∧ y.score = v) := by
          rintro ⟨h1, h2⟩; rw [h1, h2] at h; exact lt_irrefl v h
        rw [insertDesc, if_pos h]
        by_cases hyv : y.score = v
        · have hxv : ¬ x.score = v := fun hc => hxy ⟨hc, hyv⟩
          simp only [List.filter_cons, hyv, beq_self_eq_true, if_pos]
          rw [ih hys]
          simp [hxv, hyv]
        · simp only [List.filter_cons]
          rw [ih hys]
          by_cases hxv : x.score = v <;> simp [hxv, hyv]
      · rw [insertDesc, if_neg h]
        by_cases hxv : x.score = v <;> simp [List.filter_cons, hxv]

/-- Stability of the full sort: the subsequence of results carrying any fixed
score is unchanged by sorting. -/
lemma filter_sortByScoreDesc (v : ℚ) :
    ∀ l : List SearchResult,
      (sortByScoreDesc l).filter (fun r => r.score == v) =
        l.filter (fun r => r.score == v) := by
  intro l
  induction l with
  | nil => rfl
  | cons x xs ih =>
      rw [sortByScoreDesc, filter_insertDesc x v (sortByScoreDesc xs) (pairwise_sortByScoreDesc xs)]
      by_cases hxv : x.score = v <;> simp [List.filter_cons, hxv, ih]

/-- Every returned search result arises from an indexed document via the loop
body `searchOne`. -/
lemma mem_search (docs : List IndexedDocument) (query : String) (maxResults : Nat)
    (r : SearchResult) (hr : r ∈ search docs query maxResults) :
    ∃ doc ∈ docs, searchOne (jsToLower query) doc = some r := by
  simp only [search] at hr
  have h1 : r ∈ sortByScoreDesc (docs.filterMap (fun doc => searchOne (jsToLower query) doc)) :=
    List.take_subset _ _ hr
  have h2 : r ∈ docs.filterMap (fun doc => searchOne (jsToLower query) doc) :=
    (mem_sortByScoreDesc r _).mp h1
  exact List.mem_filterMap.mp h2

/-- Unfolding of a successful loop-body result: the document matched, and the
result's fields are the ones the loop pushes. -/
lemma searchOne_eq_some (queryLower : String) (doc : IndexedDocument) (r : SearchResult)
    (h : searchOne queryLower doc = some r) :
    jsIncludes (jsToLower doc.content) queryLower = true ∧
    r.document = doc ∧
    r.score = min (((((jsSplit (jsToLower doc.content) queryLower).length : Int) - 1 : Int) : ℚ) / 10) 1 ∧
    r.snippet = "..." ++
        jsSlice doc.content
          ((firstOcc queryLower.data (jsToLower doc.content).data).getD 0 - 100)
          (min doc.content.data.length
            ((firstOcc queryLower.data (jsToLower doc.content).data).getD 0 + 200)) ++
        "..." := by
  by_cases hin : jsIncludes (jsToLower doc.content) queryLower
  · rw [searchOne] at h
    simp only [hin, if_pos, Option.some.injEq] at h
    refine ⟨hin, ?_, ?_, ?_⟩ <;> rw [← h]
  · rw [searchOne] at h
    simp [hin] at h

/-- A non-empty separator always yields at least one segment. -/
lemma jsSplit_length_pos (s sep : String) (h : sep ≠ "") : 1 ≤ (jsSplit s sep).length := by
  have hdata : ¬ sep.data.isEmpty = true := by
    cases sep with
    | mk d =>
        cases d with
        | nil => exact absurd rfl h
        | cons c cs => simp [List.isEmpty]
  have hne := splitOnFuel_ne_nil sep.data s.data.length s.data []
  rw [jsSplit, if_neg hdata, List.length_map]
  exact Nat.one_le_iff_ne_zero.mpr (fun hz => hne (List.length_eq_zero.mp hz))

/-! ## Claim theorems -/

/-- C1: the spec asserts that after the ordered glob translation, `**` matches
any run of characters including path separators, with three concrete
examples: `a/b/c.md` matches `a/**/*.md`, does not match `a/*.md`, and
`x/node_modules/y/z.ts` matches `**/node_modules/**`.  On the code, the first
two examples hold but the third fails: the global `*` replacement re-expands
the `*` inside the `.*` that the `**` replacement just produced, compiling
`**` to `.[^/]*` (one arbitrary character, then a run of non-separators), so
`**` cannot span a path separator beyond its first character and
`**/node_modules/**` rejects `x/node_modules/y/z.ts`. -/
theorem C1_matchPattern_examples :
    matchPattern "a/b/c.md" "a/**/*.md" = true ∧
    matchPattern "a/b/c.md" "a/*.md" = false ∧
    matchPattern "x/node_modules/y/z.ts" "**/node_modules/**" = false :=
  ⟨by decide, by decide, by decide⟩

/-- C6 counterexample: at the empty path the claimed equality fails on the
code: `!item.path` is true for the empty string (JavaScript falsiness), so
the tree filter rejects a blob with path `""` even though with include
pattern `"*"` and no excludes the claimed predicate
`anyMatch(includes) AND NOT anyMatch(excludes)` is true. -/
theorem C6_empty_path_counterexample :
    matchingFilter ["*"] [] ⟨"blob", some "", none, none⟩ = false ∧
    ((["*"] : List String).any (fun pat => matchPattern "" pat) &&
      !(([] : List String).any (fun pat => matchPattern "" pat))) = true :=
  ⟨rfl, by decide⟩

/-- C6 amended: for every non-empty path, the file-eligibility predicate used
when filtering the repository tree is exactly (some include pattern matches)
AND NOT (some exclude pattern matches); an item whose path is empty is
rejected regardless of the patterns (JavaScript falsiness of `!item.path`);
and an empty include set makes no item eligible (fail-closed). -/
theorem C6_eligibility_nonempty :
    (∀ (includePatterns excludePatterns : List String) (item : TreeItem) (p : String),
        item.type = "blob" → item.path = some p → p ≠ "" →
        matchingFilter includePatterns excludePatterns item =
          (includePatterns.any (fun pat => matchPattern p pat) &&
            !excludePatterns.any (fun pat => matchPattern p pat))) ∧
    (∀ (includePatterns excludePatterns : List String) (item : TreeItem),
        item.path = some "" → matchingFilter includePatterns excludePatterns item = false) ∧
    (∀ (excludePatterns : List String) (item : TreeItem),
        matchingFilter [] excludePatterns item = false) := by
  refine ⟨?_, ?_, ?_⟩
  · intro inc exc item p htype hpath hne
    have hbeq : (p == "") = false := beq_eq_false_iff_ne.mpr hne
    rw [matchingFilter]
    simp only [htype, hpath, jsTruthy, hbeq, Option.getD_some]
    cases hinc : inc.any (fun pat => matchPattern p pat) <;>
      cases hexc : exc.any (fun pat => matchPattern p pat) <;> simp [hinc, hexc]
  · intro inc exc item hpath
    rw [matchingFilter]
    simp [hpath, jsTruthy]
  · intro exc item
    rw [matchingFilter]
    cases hpath : item.path <;> simp [jsTruthy]

/-- Closed instance of C6's amended theorem. -/
theorem C6_eligibility_nonempty_witness :
    matchingFilter ["a/**/*.md"] ["**/node_modules/**"]
        ⟨"blob", some "a/b/c.md", some "s", none⟩ =
      (["a/**/*.md"].any (fun pat => matchPattern "a/b/c.md" pat) &&
        !(["**/node_modules/**"].any (fun pat => matchPattern "a/b/c.md" pat))) ∧
    matchingFilter ["*"] ["x"] ⟨"blob", some "", some "s", none⟩ = false ∧
    matchingFilter [] ["**/*.md"] ⟨"blob", some "p.md", none, none⟩ = false :=
  ⟨C6_eligibility_nonempty.1 ["a/**/*.md"] ["**/node_modules/**"]
      ⟨"blob", some "a/b/c.md", some "s", none⟩ "a/b/c.md" rfl rfl (by decide),
    C6_eligibility_nonempty.2.1 ["*"] ["x"] ⟨"blob", some "", some "s", none⟩ rfl,
    C6_eligibility_nonempty.2.2 ["**/*.md"] ⟨"blob", some "p.md", none, none⟩⟩

/-- A string is non-empty exactly when its character data is. -/
lemma data_ne_nil_of_ne_empty (s : String) (h : s ≠ "") : s.data ≠ [] :=
  fun hd => h (String.ext hd)

/-- An indexed document with empty content (the schema allows any string). -/
def emptyDoc : IndexedDocument :=
  { id := "o/r/main/empty.md", repoOwner := "o", repoName := "r", branch := "main",
    filePath := "empty.md", content := "", fileType := "md",
    lastModified := "2024-01-01T00:00:00Z", size := 0, hash := "h0",
    indexed := "2024-01-01T00:00:00Z" }

/-- An indexed document whose content is the string "foo foo foo". -/
def fooDoc : IndexedDocument :=
  { id := "o/r/main/foo.md", repoOwner := "o", repoName := "r", branch := "main",
    filePath := "foo.md", content := "foo foo foo", fileType := "md",
    lastModified := "2024-01-01T00:00:00Z", size := 11, hash := "h1",
    indexed := "2024-01-01T00:00:00Z" }

/-- C3 counterexample: searching an index holding a document with empty
content for the empty query returns that document with score
`min(("".split("").length - 1) / 10, 1) = -1/10`, which is below `0`, so not
every returned relevance score lies in `[0, 1]`. -/
theorem C3_score_out_of_range :
    (search [emptyDoc] "" 10).map (fun r => r.score) = [-(1 / 10 : ℚ)] ∧
    ¬ (0 : ℚ) ≤ -(1 / 10 : ℚ) := by
  constructor
  · have h0 : (search [emptyDoc] "" 10).map (fun r => r.score) =
        [min (((((jsSplit (jsToLower emptyDoc.content) (jsToLower "")).length : Int) - 1 : Int) : ℚ) / 10) 1] := by
      rfl
    rw [h0]
    have hl : (jsSplit (jsToLower emptyDoc.content) (jsToLower "")).length = 0 := by decide
    rw [hl]
    have h1 : ((((0 : Nat) : Int) - 1 : Int) : ℚ) / 10 = -(1 / 10) := by norm_num
    rw [h1, min_eq_left (by norm_num)]
  · norm_num

/-- C3 amended: every relevance score returned by `search` lies in `[0, 1]`
provided the query is non-empty or the matched document's content is
non-empty; in the one remaining degenerate case (empty query matching empty
content) the score is `-1/10`. -/
theorem C3_score_bounds :
    ∀ (docs : List IndexedDocument) (query : String) (maxResults : Nat),
      ∀ r ∈ search docs query maxResults,
        (query ≠ "" ∨ r.document.content ≠ "") → 0 ≤ r.score ∧ r.score ≤ 1 := by
  intro docs query maxResults r hr hcase
  obtain ⟨doc, _, hsome⟩ := mem_search docs query maxResults r hr
  obtain ⟨_, hdocEq, hscore, _⟩ := searchOne_eq_some (jsToLower query) doc r hsome
  have hnum : (0 : Int) ≤ ((jsSplit (jsToLower doc.content) (jsToLower query)).length : Int) - 1 := by
    rcases hcase with hq | hc
    · have hql : jsToLower query ≠ "" := fun h => hq ((jsToLower_eq_empty_iff query).mp h)
      have := jsSplit_length_pos (jsToLower doc.content) (jsToLower query) hql
      omega
    · rw [hdocEq] at hc
      by_cases hql : jsToLower query = ""
      · rw [hql]
        have hcl : (jsToLower doc.content).data ≠ [] := by
          have hc' : jsToLower doc.content ≠ "" := by
            intro h
            exact hc ((jsToLower_eq_empty_iff doc.content).mp h)
          exact data_ne_nil_of_ne_empty _ hc'
        have hlen : (jsSplit (jsToLower doc.content) "").length =
            (jsToLower doc.content).data.length := by
          rw [jsSplit]
          simp [List.isEmpty_nil]
        rw [hlen]
        have : (jsToLower doc.content).data.length ≠ 0 :=
          fun hz => hcl (List.length_eq_zero.mp hz)
        omega
      · have := jsSplit_length_pos (jsToLower doc.content) (jsToLower query) hql
        omega
  rw [hscore]
  refine ⟨le_min ?_ (by norm_num), min_le_right _ _⟩
  apply div_nonneg _ (by norm_num)
  exact_mod_cast hnum

/-- Closed instance of C3's amended theorem. -/
theorem C3_score_bounds_witness :
    0 ≤ (⟨fooDoc, 3 / 10, "...foo foo foo..."⟩ : SearchResult).score ∧
      (⟨fooDoc, 3 / 10, "...foo foo foo..."⟩ : SearchResult).score ≤ 1 := by
  have hs : search [fooDoc] "foo" 10 = [⟨fooDoc, 3 / 10, "...foo foo foo..."⟩] := by
    have h0 : search [fooDoc] "foo" 10 =
        [⟨fooDoc, min (((((jsSplit (jsToLower fooDoc.content) (jsToLower "foo")).length : Int) - 1 : Int) : ℚ) / 10) 1,
          "...foo foo foo..."⟩] := by
      rfl
    rw [h0]
    have hl : (jsSplit (jsToLower fooDoc.content) (jsToLower "foo")).length = 4 := by decide
    rw [hl]
    have h1 : ((((4 : Nat) : Int) - 1 : Int) : ℚ) / 10 = 3 / 10 := by norm_num
    rw [h1, min_eq_left (by norm_num)]
  exact C3_score_bounds [fooDoc] "foo" 10 ⟨fooDoc, 3 / 10, "...foo foo foo..."⟩
    (by rw [hs]; exact List.mem_singleton_self _) (Or.inl (by decide))

/-- An indexed document whose content holds thirty occurrences of "ab". -/
def abDoc : IndexedDocument :=
  { id := "o/r/main/ab.md", repoOwner := "o", repoName := "r", branch := "main",
    filePath := "ab.md", content := ⟨(List.replicate 30 ['a', 'b', ' ']).flatten⟩,
    fileType := "md", lastModified := "2024-01-01T00:00:00Z", size := 90, hash := "h2",
    indexed := "2024-01-01T00:00:00Z" }

/-- C5: for a non-empty query, a document is in the (untruncated) result set
iff its content contains the query case-insensitively; every returned score is
`min(occurrenceCount / 10, 1)` with `occurrenceCount` the number of
non-overlapping case-insensitive occurrences; `"foo foo foo"` searched for
`"foo"` scores `3/10`, and a document with thirty occurrences scores `1`. -/
theorem C5_membership_and_score :
    (∀ (docs : List IndexedDocument) (query : String) (maxResults : Nat)
        (doc : IndexedDocument),
        query ≠ "" → doc ∈ docs → docs.length ≤ maxResults →
        ((∃ r ∈ search docs query maxResults, r.document = doc) ↔
          jsIncludes (jsToLower doc.content) (jsToLower query) = true)) ∧
    (∀ (docs : List IndexedDocument) (query : String) (maxResults : Nat),
        query ≠ "" →
        ∀ r ∈ search docs query maxResults,
          r.score =
            min ((countOccs (jsToLower query).data (jsToLower r.document.content).data : ℚ) / 10)
              1) ∧
    (search [fooDoc] "foo" 10).map (fun r => r.score) = [3 / 10] ∧
    (search [abDoc] "ab" 10).map (fun r => r.score) = [1] := by
  refine ⟨?_, ?_, ?_, ?_⟩
  · intro docs query n doc hq hdoc hlen
    constructor
    · rintro ⟨r, hr, hrdoc⟩
      obtain ⟨doc', _, hsome⟩ := mem_search docs query n r hr
      obtain ⟨hin, hrdoc', _, _⟩ := searchOne_eq_some (jsToLower query) doc' r hsome
      rw [← hrdoc, hrdoc']
      exact hin
    · intro hin
      have hsome : ∃ r0, searchOne (jsToLower query) doc = some r0 := by
        rw [searchOne]
        simp [hin]
      obtain ⟨r0, hr0⟩ := hsome
      refine ⟨r0, ?_, (searchOne_eq_some (jsToLower query) doc r0 hr0).2.1⟩
      have hmem : r0 ∈ docs.filterMap (fun d => searchOne (jsToLower query) d) :=
        List.mem_filterMap.mpr ⟨doc, hdoc, hr0⟩
      have hsorted : r0 ∈ sortByScoreDesc (docs.filterMap (fun d => searchOne (jsToLower query) d)) :=
        (mem_sortByScoreDesc r0 _).mpr hmem
      have hfull :
          (sortByScoreDesc (docs.filterMap (fun d => searchOne (jsToLower query) d))).length ≤ n := by
        rw [length_sortByScoreDesc]
        exact le_trans (List.length_filterMap_le _ _) hlen
      simp only [search]
      rw [List.take_of_length_le hfull]
      exact hsorted
  · intro docs query n hq r hr
    obtain ⟨doc, _, hsome⟩ := mem_search docs query n r hr
    obtain ⟨_, hrdoc, hscore, _⟩ := searchOne_eq_some (jsToLower query) doc r hsome
    rw [hscore, hrdoc]
    have hql : jsToLower query ≠ "" := fun h => hq ((jsToLower_eq_empty_iff query).mp h)
    rw [jsSplit_length_sub_one (jsToLower doc.content) (jsToLower query) hql]
    push_cast
    rfl
  · have h0 : (search [fooDoc] "foo" 10).map (fun r => r.score) =
        [min (((((jsSplit (jsToLower fooDoc.content) (jsToLower "foo")).length : Int) - 1 : Int) : ℚ) / 10) 1] := by
      rfl
    rw [h0]
    have hl : (jsSplit (jsToLower fooDoc.content) (jsToLower "foo")).length = 4 := by decide
    rw [hl]
    have h1 : ((((4 : Nat) : Int) - 1 : Int) : ℚ) / 10 = 3 / 10 := by norm_num
    rw [h1, min_eq_left (by norm_num)]
  · have h0 : (search [abDoc] "ab" 10).map (fun r => r.score) =
        [min (((((jsSplit (jsToLower abDoc.content) (jsToLower "ab")).length : Int) - 1 : Int) : ℚ) / 10) 1] := by
      rfl
    rw [h0]
    have hl : (jsSplit (jsToLower abDoc.content) (jsToLower "ab")).length = 31 := by decide
    rw [hl]
    have h1 : ((((31 : Nat) : Int) - 1 : Int) : ℚ) / 10 = 3 := by norm_num
    rw [h1, min_eq_right (by norm_num)]

/-- Closed instance of C5's theorem. -/
theorem C5_membership_and_score_witness :
    ((∃ r ∈ search [fooDoc] "foo" 10, r.document = fooDoc) ↔
      jsIncludes (jsToLower fooDoc.content) (jsToLower "foo") = true) ∧
    (⟨fooDoc, 3 / 10, "...foo foo foo..."⟩ : SearchResult).score =
      min ((countOccs (jsToLower "foo").data (jsToLower fooDoc.content).data : ℚ) / 10) 1 := by
  constructor
  · exact C5_membership_and_score.1 [fooDoc] "foo" 10 fooDoc (by decide)
      (List.mem_singleton_self _) (by norm_num)
  · have hs : search [fooDoc] "foo" 10 = [⟨fooDoc, 3 / 10, "...foo foo foo..."⟩] := by
      have h0 : search [fooDoc] "foo" 10 =
          [⟨fooDoc, min (((((jsSplit (jsToLower fooDoc.content) (jsToLower "foo")).length : Int) - 1 : Int) : ℚ) / 10) 1,
            "...foo foo foo..."⟩] := by
        rfl
      rw [h0]
      have hl : (jsSplit (jsToLower fooDoc.content) (jsToLower "foo")).length = 4 := by decide
      rw [hl]
      have h1 : ((((4 : Nat) : Int) - 1 : Int) : ℚ) / 10 = 3 / 10 := by norm_num
      rw [h1, min_eq_left (by norm_num)]
    exact C5_membership_and_score.2.1 [fooDoc] "foo" 10 (by decide)
      ⟨fooDoc, 3 / 10, "...foo foo foo..."⟩ (by rw [hs]; exact List.mem_singleton_self _)

/-- C7: search results are sorted non-increasing by score; within a fixed
score the results preserve the index's iteration (insertion) order — the sort
is stable; and `maxResults` truncates after sorting, so a smaller limit yields
a prefix of a larger limit's answer. -/
theorem C7_sorted_stable_truncation :
    (∀ (docs : List IndexedDocument) (query : String) (maxResults : Nat),
        (search docs query maxResults).Pairwise (fun a b => b.score ≤ a.score)) ∧
    (∀ (docs : List IndexedDocument) (query : String) (v : ℚ),
        (search docs query docs.length).filter (fun r => r.score == v) =
          (docs.filterMap (fun doc => searchOne (jsToLower query) doc)).filter
            (fun r => r.score == v)) ∧
    (∀ (docs : List IndexedDocument) (query : String) (n m : Nat),
        n ≤ m → search docs query n = (search docs query m).take n) := by
  refine ⟨?_, ?_, ?_⟩
  · intro docs query n
    simp only [search]
    exact List.Pairwise.sublist (List.take_sublist _ _) (pairwise_sortByScoreDesc _)
  · intro docs query v
    simp only [search]
    have hfull :
        (sortByScoreDesc (docs.filterMap (fun d => searchOne (jsToLower query) d))).length ≤
          docs.length := by
      rw [length_sortByScoreDesc]
      exact List.length_filterMap_le _ _
    rw [List.take_of_length_le hfull]
    exact filter_sortByScoreDesc v _
  · intro docs query n m hnm
    simp only [search]
    rw [List.take_take, min_eq_left hnm]

/-- Closed instance of C7's theorem. -/
theorem C7_sorted_stable_truncation_witness :
    search [fooDoc] "foo" 2 = (search [fooDoc] "foo" 5).take 2 :=
  C7_sorted_stable_truncation.2.2 [fooDoc] "foo" 2 5 (by norm_num)

/-- The loop body on the empty query always produces a result, with the
snippet sliced from the start of the content. -/
lemma searchOne_empty_query (doc : IndexedDocument) :
    searchOne "" doc =
      some
        ⟨doc, min (((((jsSplit (jsToLower doc.content) "").length : Int) - 1 : Int) : ℚ) / 10) 1,
          "..." ++ jsSlice doc.content 0 (min doc.content.data.length 200) ++ "..."⟩ := by
  have hin : jsIncludes (jsToLower doc.content) "" = true := by
    simp [jsIncludes, firstOcc_nil]
  simp [searchOne, hin, firstOcc_nil]

/-- C10: the empty query is treated as contained in every document at offset
0: search returns one result per indexed document (truncated to `maxResults`)
rather than rejecting the query, and each snippet is taken from the start of
the document's content. -/
theorem C10_empty_query :
    ∀ (docs : List IndexedDocument) (maxResults : Nat),
      (search docs "" maxResults).length = min maxResults docs.length ∧
      ∀ r ∈ search docs "" maxResults,
        r.snippet =
          "..." ++ jsSlice r.document.content 0 (min r.document.content.data.length 200) ++ "..." := by
  intro docs n
  constructor
  · simp only [search]
    rw [List.length_take, length_sortByScoreDesc]
    congr 1
    rw [show jsToLower "" = "" from rfl]
    induction docs with
    | nil => rfl
    | cons d ds ih =>
        rw [List.filterMap_cons, searchOne_empty_query]
        simp [ih]
  · intro r hr
    obtain ⟨doc, _, hsome⟩ := mem_search docs "" n r hr
    rw [show jsToLower "" = "" from rfl, searchOne_empty_query] at hsome
    have h := Option.some.inj hsome
    rw [← h]

/-- Closed instance of C10's theorem. -/
theorem C10_empty_query_witness :
    (search [fooDoc] "" 10).length = min 10 [fooDoc].length ∧
    (⟨fooDoc, 1, "...foo foo foo..."⟩ : SearchResult).snippet =
      "..." ++ jsSlice fooDoc.content 0 (min fooDoc.content.data.length 200) ++ "..." := by
  have hs : search [fooDoc] "" 10 = [⟨fooDoc, 1, "...foo foo foo..."⟩] := by
    have h0 : search [fooDoc] "" 10 =
        [⟨fooDoc, min (((((jsSplit (jsToLower fooDoc.content) (jsToLower "")).length : Int) - 1 : Int) : ℚ) / 10) 1,
          "...foo foo foo..."⟩] := by
      rfl
    rw [h0]
    have hl : (jsSplit (jsToLower fooDoc.content) (jsToLower "")).length = 11 := by decide
    rw [hl]
    have h1 : ((((11 : Nat) : Int) - 1 : Int) : ℚ) / 10 = 1 := by norm_num
    rw [h1, min_self]
  refine ⟨(C10_empty_query [fooDoc] 10).1, ?_⟩
  exact (C10_empty_query [fooDoc] 10).2 ⟨fooDoc, 1, "...foo foo foo..."⟩
    (by rw [hs]; exact List.mem_singleton_self _)

/-- An indexed document whose content is 210 copies of 'a'. -/
def longDoc : IndexedDocument :=
  { id := "o/r/main/long.md", repoOwner := "o", repoName := "r", branch := "main",
    filePath := "long.md", content := ⟨List.replicate 210 'a'⟩, fileType := "md",
    lastModified := "2024-01-01T00:00:00Z", size := 210, hash := "h3",
    indexed := "2024-01-01T00:00:00Z" }

set_option maxRecDepth 8192 in
/-- C2 counterexample: on a 210-character document matched by query `"aaa"` at
offset 0, the snippet produced by `search` is the ellipsis-wrapped substring
spanning `[0, 0 + 200)` — the code computes the window end as
`firstMatchIndex + 200` — which differs from the substring spanning
`[0, 0 + len(query) + 200)` claimed by the spec. -/
theorem C2_snippet_counterexample :
    (search [longDoc] "aaa" 10).map (fun r => r.snippet) =
      ["..." ++ jsSlice longDoc.content 0 (min longDoc.content.data.length (0 + 200)) ++ "..."] ∧
    "..." ++ jsSlice longDoc.content 0 (min longDoc.content.data.length (0 + 200)) ++ "..." ≠
      "..." ++ jsSlice longDoc.content 0
          (min longDoc.content.data.length (0 + "aaa".length + 200)) ++ "..." := by
  exact ⟨rfl, by decide⟩

/-- C2 amended: for every returned result, with `i` the least offset at which
the lowercased query occurs in the lowercased content, the snippet is the
substring of the original content spanning `[i − 100, i + 200)` (not
`i + len(query) + 200`), clamped to the content bounds and wrapped in
ellipsis markers. -/
theorem C2_snippet_window :
    ∀ (docs : List IndexedDocument) (query : String) (maxResults : Nat),
      ∀ r ∈ search docs query maxResults,
      ∀ i : Nat,
        (jsToLower query).data.isPrefixOf ((jsToLower r.document.content).data.drop i) = true →
        (∀ j, j < i →
          ¬ (jsToLower query).data.isPrefixOf ((jsToLower r.document.content).data.drop j) = true) →
        r.snippet =
          "..." ++
            jsSlice r.document.content (i - 100)
              (min r.document.content.data.length (i + 200)) ++ "..." := by
  intro docs query n r hr i hocc hleast
  obtain ⟨doc, _, hsome⟩ := mem_search docs query n r hr
  obtain ⟨_, hrdoc, _, hsnip⟩ := searchOne_eq_some (jsToLower query) doc r hsome
  rw [hrdoc] at hocc hleast ⊢
  rw [hsnip, firstOcc_eq_of_least (jsToLower query).data (jsToLower doc.content).data i hocc hleast]
  rfl

/-- Closed instance of C2's amended theorem. -/
theorem C2_snippet_window_witness :
    (⟨fooDoc, 3 / 10, "...foo foo foo..."⟩ : SearchResult).snippet =
      "..." ++
        jsSlice fooDoc.content (0 - 100) (min fooDoc.content.data.length (0 + 200)) ++ "..." := by
  have hs : search [fooDoc] "foo" 10 = [⟨fooDoc, 3 / 10, "...foo foo foo..."⟩] := by
    have h0 : search [fooDoc] "foo" 10 =
        [⟨fooDoc, min (((((jsSplit (jsToLower fooDoc.content) (jsToLower "foo")).length : Int) - 1 : Int) : ℚ) / 10) 1,
          "...foo foo foo..."⟩] := by
      rfl
    rw [h0]
    have hl : (jsSplit (jsToLower fooDoc.content) (jsToLower "foo")).length = 4 := by decide
    rw [hl]
    have h1 : ((((4 : Nat) : Int) - 1 : Int) : ℚ) / 10 = 3 / 10 := by norm_num
    rw [h1, min_eq_left (by norm_num)]
  exact C2_snippet_window [fooDoc] "foo" 10 ⟨fooDoc, 3 / 10, "...foo foo foo..."⟩
    (by rw [hs]; exact List.mem_singleton_self _) 0 (by decide)
    (fun j hj => absurd hj (Nat.not_lt_zero j))

/-- A blocklist whose single entry carries a hash that does not match a
recomputation from its fields. -/
def tamperedEntryFields : BlocklistEntryFields :=
  { timestamp := "2024-01-01T00:00:00Z", type := "server", serverName := some "evil",
    pattern := none, reason := "bad actor", allowOverride := false, source := "user" }

def tamperedBlocklist : Blocklist :=
  { version := "1.0.0", lastUpdated := "2024-01-01T00:00:00Z",
    entries := [⟨tamperedEntryFields, "sha256:0000"⟩] }

/-- C4 counterexample: loading a ledger whose entry's stored hash provably
differs from the hash recomputed from the entry's fields succeeds and returns
the ledger entirely unchanged — no recomputation happens and no mismatch flag
or warning exists anywhere in the result. -/
theorem C4_no_integrity_check_on_load :
    loadBlocklist tamperedBlocklist = Except.ok tamperedBlocklist ∧
    tamperedBlocklist.entries.map (fun e => e.hash) = ["sha256:0000"] ∧
    "sha256:0000" ≠ calculateHash (fun s => s) tamperedEntryFields := by
  refine ⟨rfl, rfl, by decide⟩

/-- C4 amended: loading the blocklist performs schema validation only: any
schema-valid ledger — whatever its stored hashes — loads successfully and
unchanged; entry hashes are never recomputed on load and mismatches are not
surfaced (integrity hashes are write-time provenance only). -/
theorem C4_load_schema_only :
    ∀ bl : Blocklist, bl.entries.all validEntry = true → loadBlocklist bl = Except.ok bl := by
  intro bl h
  rw [loadBlocklist, if_pos h]

/-- Closed instance of C4's amended theorem. -/
theorem C4_load_schema_only_witness :
    loadBlocklist tamperedBlocklist = Except.ok tamperedBlocklist :=
  C4_load_schema_only tamperedBlocklist (by decide)

/-- Whether a list of strings is strictly increasing in code-point
lexicographic order. -/
def chainLtKeys : List String → Bool
  | [] => true
  | [_] => true
  | a :: b :: rest => charListLt a.data b.data && chainLtKeys (b :: rest)

/-- C8: the integrity hash appended to a blocklist entry is a pure function
of the entry's fields (the hash field itself excluded by construction of the
hashed record), over the canonical serialization whose field names are
lexicographically sorted; appending the same fields twice — same timestamp —
yields two entries with identical hashes. -/
theorem C8_hash_deterministic :
    ∀ (digest : String → String) (bl : Blocklist) (e : BlocklistEntryFields) (now1 now2 : String),
      (addBlocklistEntry digest now2 (addBlocklistEntry digest now1 bl e) e).entries =
        bl.entries ++ [⟨e, calculateHash digest e⟩, ⟨e, calculateHash digest e⟩] ∧
      calculateHash digest e = "sha256:" ++ digest (canonicalJSON e) ∧
      sortKeys entryKeys =
        ["allowOverride", "pattern", "reason", "serverName", "source", "timestamp", "type"] ∧
      chainLtKeys (sortKeys entryKeys) = true := by
  intro digest bl e now1 now2
  refine ⟨?_, rfl, by decide, by decide⟩
  simp [addBlocklistEntry]

/-- A repository configuration used in closed instances. -/
def sampleRepo : RepoConfig :=
  { owner := "o", repo := "r", branch := "main", includePatterns := ["a.md"],
    excludePatterns := [], indexingEnabled := true }

/-- C9: provider failures are isolated per unit of work.  A failed blob fetch
for one file removes exactly that file's document — the repository's other
files (before and after it in the tree) produce the same documents as if the
failing file were absent; a repository-level failure (failed tree listing)
yields an empty batch; and a repository whose tree listing fails contributes
nothing to a sync pass while every other repository is processed as if the
failing one were absent. -/
theorem C9_failure_isolation :
    (∀ (getBlob : String → Except String String) (owner repo branch now : String)
        (inc exc : List String) (pre post : List TreeItem) (f : TreeItem) (sha msg : String),
        f.sha = some sha → getBlob sha = Except.error msg →
        fetchFilesFromRepo (Except.ok (pre ++ f :: post)) getBlob owner repo branch inc exc now =
          fetchFilesFromRepo (Except.ok (pre ++ post)) getBlob owner repo branch inc exc now) ∧
    (∀ (getBlob : String → Except String String) (owner repo branch now msg : String)
        (inc exc : List String),
        fetchFilesFromRepo (Except.error msg) getBlob owner repo branch inc exc now = []) ∧
    (∀ (getTree : RepoConfig → Except String (List TreeItem))
        (getBlob : RepoConfig → String → Except String String) (now msg : String)
        (pre post : List RepoConfig) (r : RepoConfig) (index : List IndexedDocument),
        getTree r = Except.error msg →
        syncConfiguredRepos getTree getBlob now (pre ++ r :: post) index =
          syncConfiguredRepos getTree getBlob now (pre ++ post) index) := by
  refine ⟨?_, ?_, ?_⟩
  · intro getBlob owner repo branch now inc exc pre post f sha msg hsha hblob
    simp only [fetchFilesFromRepo, List.filter_append, List.filterMap_append]
    cases hf : matchingFilter inc exc f
    · simp [List.filter_cons, hf]
    · simp only [List.filter_cons, hf, if_true, List.filterMap_cons]
      cases hp : f.path
      · simp [hp]
      · simp [hp, hsha, hblob]
  · intro getBlob owner repo branch now msg inc exc
    rfl
  · intro getTree getBlob now msg pre post r index hTree
    simp only [syncConfiguredRepos, List.foldl_append, List.foldl_cons]
    congr 1
    cases hEn : r.indexingEnabled
    · simp [hEn]
    · simp [hEn, hTree, fetchFilesFromRepo, addDocuments]

/-- Closed instance of C9's theorem. -/
theorem C9_failure_isolation_witness :
    fetchFilesFromRepo (Except.ok [(⟨"blob", some "a.md", some "s1", none⟩ : TreeItem)])
        (fun _ => Except.error "boom") "o" "r" "main" ["a.md"] [] "t" =
      fetchFilesFromRepo (Except.ok []) (fun _ => Except.error "boom") "o" "r" "main"
        ["a.md"] [] "t" ∧
    syncConfiguredRepos (fun _ => Except.error "down") (fun _ _ => Except.error "x") "t"
        [sampleRepo] [] =
      syncConfiguredRepos (fun _ => Except.error "down") (fun _ _ => Except.error "x") "t" [] [] :=
  ⟨C9_failure_isolation.1 (fun _ => Except.error "boom") "o" "r" "main" "t" ["a.md"] [] [] []
      ⟨"blob", some "a.md", some "s1", none⟩ "s1" "boom" rfl rfl,
    C9_failure_isolation.2.2 (fun _ => Except.error "down") (fun _ _ => Except.error "x") "t" "down"
      [] [] sampleRepo [] rfl⟩
